import Mathlib

/-!
Verification of the patch-block parser and sequential-apply engine of
`project_mem_mcp/server.py`.

Strings are modelled as `List Char`.  The Python string primitives used by the
source (`str.count`, `str.replace`, `str.split`, `str.find`, `str.splitlines`,
`str.strip`, substring membership) are embedded as structurally recursive
functions with Python's exact semantics (non-overlapping counting, empty-pattern
conventions, `-1` on failed `find`, universal-newline splitting for `\n`, `\r\n`
and `\r`).
-/

set_option autoImplicit false

abbrev Str := List Char

/-! ### Python string primitives -/

/-- Python `str.count` / `str.replace` scanning helper state: when a pattern of
length `L` is matched, the scan jumps over it; the `Nat` argument is the number
of characters still to be skipped from a previous match. -/
def countAux (pat : Str) : Str → Nat → Nat
  | [], _ => 0
  | _ :: t, k + 1 => countAux pat t k
  | c :: t, 0 =>
    if pat <+: (c :: t) then 1 + countAux pat t (pat.length - 1)
    else countAux pat t 0

/-- Python `str.count sub`: non-overlapping occurrences; an empty pattern is
counted `length + 1` times. -/
def strCount (s pat : Str) : Nat :=
  match pat with
  | [] => s.length + 1
  | _ :: _ => countAux pat s 0

/-- Helper for Python `str.replace` with an empty search string:
`"ab".replace("", n)` is `n ++ "a" ++ n ++ "b" ++ n`. -/
def emptyIns (new_ : Str) : Str → Str
  | [] => []
  | c :: t => c :: (new_ ++ emptyIns new_ t)

/-- Scanning helper for `str.replace` (non-empty pattern); the `Nat` is the
skip state as in `countAux`. -/
def replaceAux (pat new_ : Str) : Str → Nat → Str
  | [], _ => []
  | _ :: t, k + 1 => replaceAux pat new_ t k
  | c :: t, 0 =>
    if pat <+: (c :: t) then new_ ++ replaceAux pat new_ t (pat.length - 1)
    else c :: replaceAux pat new_ t 0

/-- Python `str.replace old new` (replace all non-overlapping occurrences). -/
def strReplace (s old new_ : Str) : Str :=
  match old with
  | [] => new_ ++ emptyIns new_ s
  | _ :: _ => replaceAux old new_ s 0

/-- List of pieces: prepend a character to the first piece. -/
def consHead (c : Char) : List Str → List Str
  | [] => [[c]]
  | x :: xs => (c :: x) :: xs

/-- Scanning helper for Python `str.split sep` (non-empty separator). -/
def splitAux (pat : Str) : Str → Nat → List Str
  | [], _ => [[]]
  | _ :: t, k + 1 => splitAux pat t k
  | c :: t, 0 =>
    if pat <+: (c :: t) then [] :: splitAux pat t (pat.length - 1)
    else consHead c (splitAux pat t 0)

/-- Python `str.split sep` for a non-empty separator (the source only splits on
a marker literal, which is non-empty). -/
def pySplit (s pat : Str) : List Str :=
  match pat with
  | [] => [s]
  | _ :: _ => splitAux pat s 0

/-- Index of the first occurrence of `pat` in a string, if any. -/
def findIdx? (pat : Str) (s : Str) : Option Nat :=
  if pat <+: s then some 0
  else
    match s with
    | [] => none
    | _ :: t => (findIdx? pat t).map (· + 1)

/-- Python `sub in s`. -/
def isSubstr (s pat : Str) : Bool :=
  (findIdx? pat s).isSome

/-- Python `str.find`: index of the first occurrence, `-1` if absent. -/
def pyFind (s pat : Str) : Int :=
  match findIdx? pat s with
  | some n => (n : Int)
  | none => -1

/-- Python `str.splitlines` (line boundaries `\n`, `\r\n`, `\r`; no trailing
empty line for a terminating newline). -/
def splitlines : Str → List Str
  | [] => []
  | c :: t =>
    if c = '\n' then [] :: splitlines t
    else if c = '\r' then
      match t with
      | '\n' :: t2 => [] :: splitlines t2
      | t2 => [] :: splitlines t2
    else consHead c (splitlines t)

/-- Python whitespace (the ASCII part relevant to `str.strip`). -/
def pyIsSpace (c : Char) : Bool :=
  c = ' ' || c = '\t' || c = '\n' || c = '\r' || c = Char.ofNat 11 || c = Char.ofNat 12

/-- Python `str.strip()`. -/
def pyStrip (s : Str) : Str :=
  ((s.dropWhile pyIsSpace).reverse.dropWhile pyIsSpace).reverse

/-- Join a list of lines with `"\n"` (Python `"\n".join(lines)`). -/
def joinNL (lines : List Str) : Str :=
  List.intercalate ['\n'] lines

/-! ### The marker literals of `server.py` -/

def search_marker : Str := "<<<<<<< SEARCH".data

def separator : Str := "=======".data

def replace_marker : Str := ">>>>>>> REPLACE".data

/-! ### Error model

The source signals failures by raising `ValueError` with a message; each
distinct message is modelled as an error constructor carrying the data
interpolated into the message. -/

inductive VErr : Type where
  /-- "Unbalanced markers - a SEARCH, b separator, c REPLACE markers" -/
  | unbalanced (searchCount sepCount replCount : Nat)
  /-- "Incorrect marker sequence at position i: ... got ms" -/
  | badSeq (pos : Nat) (found : List Str)
  /-- "Nested SEARCH marker in block i" -/
  | nested (i : Nat)
deriving DecidableEq

inductive PErr : Type where
  | vErr (e : VErr)
  /-- "Invalid format: missing separator" -/
  | missingSeparator
  /-- "Invalid format: missing replace marker" -/
  | missingReplace
  /-- "Block i: Search text contains patch markers" -/
  | leakSearch (i : Nat)
  /-- "Block i: Replace text contains patch markers" -/
  | leakReplace (i : Nat)
  /-- "Invalid patch format. Expected block format with SEARCH/REPLACE markers." -/
  | invalidFormat
deriving DecidableEq

inductive AErr : Type where
  /-- "Block i: Could not find the search text in the file." -/
  | notFound (i : Nat)
  /-- "Block i: The search text appears c times in the file." -/
  | ambiguous (i : Nat) (count : Nat)
deriving DecidableEq

/-! ### validate_block_integrity -/

/-- Marker-sequence check (`server.py` lines 139-146): the collected marker
lines are examined in consecutive groups of three (`range(0, len, 3)` with the
`i+2 < len` guard, i.e. only complete groups are checked). -/
def seqCheck : List Str → Nat → Except VErr Unit
  | a :: b :: c :: rest, pos =>
    if a = search_marker ∧ b = separator ∧ c = replace_marker then
      seqCheck rest (pos + 3)
    else .error (.badSeq pos [a, b, c])
  | _, _ => .ok ()

/-- Nested-marker check (`server.py` lines 148-152), over `sections[1:]` with
1-based index. -/
def nestedCheck : List Str → Nat → Except VErr Unit
  | [], _ => .ok ()
  | sec :: rest, i =>
    if isSubstr sec search_marker ∧ pyFind sec replace_marker > pyFind sec search_marker then
      .error (.nested i)
    else nestedCheck rest (i + 1)

/-- Is a (stripped) line one of the three marker literals? -/
def isMarkerLine (l : Str) : Bool :=
  l == search_marker || l == separator || l == replace_marker

/-- `validate_block_integrity` (`server.py` lines 116-152). -/
def validate_block_integrity (p : Str) : Except VErr Unit :=
  let sc := strCount p search_marker
  let pc := strCount p separator
  let rc := strCount p replace_marker
  if ¬(sc = pc ∧ pc = rc) then .error (.unbalanced sc pc rc)
  else
    let markers := ((splitlines p).map pyStrip).filter isMarkerLine
    match seqCheck markers 0 with
    | .error e => .error e
    | .ok _ => nestedCheck (pySplit p search_marker).tail 1

/-! ### parse_search_replace_blocks: the regex extraction

The pattern is
`"<<<<<<< SEARCH\n(.*?)\n=======\n(.*?)\n>>>>>>> REPLACE"` with `re.DOTALL`,
extracted with `re.findall` (leftmost, non-overlapping, lazy groups).  For this
pattern the engine's behaviour is equivalent to: find the first occurrence of
the opening literal; from there the first occurrence of the middle literal;
from there the first occurrence of the closing literal (laziness picks the
first candidates, and if the first middle literal has no closing literal after
it then no later one has either); continue after the consumed match.  The fuel
is `length + 1`, sufficient since every match consumes at least one character
(see `findallAux_fuel`). -/

def lit1 : Str := search_marker ++ ['\n']

def lit2 : Str := '\n' :: (separator ++ ['\n'])

def lit3 : Str := '\n' :: replace_marker

def findallAux : Nat → Str → List (Str × Str)
  | 0, _ => []
  | fuel + 1, s =>
    match findIdx? lit1 s with
    | none => []
    | some p =>
      let t1 := s.drop (p + lit1.length)
      match findIdx? lit2 t1 with
      | none => []
      | some q =>
        let t2 := t1.drop (q + lit2.length)
        match findIdx? lit3 t2 with
        | none => []
        | some u => (t1.take q, t2.take u) :: findallAux fuel (t2.drop (u + lit3.length))

/-- `re.findall(pattern, patch_content, re.DOTALL)` (`server.py` lines 169-170). -/
def regexFindall (s : Str) : List (Str × Str) :=
  findallAux (s.length + 1) s

/-! ### parse_search_replace_blocks: fallback line scan -/

/-- Does a text contain any of the three marker literals
(`any(marker in text for marker in [...])`)? -/
def hasMarker (x : Str) : Bool :=
  isSubstr x search_marker || isSubstr x separator || isSubstr x replace_marker

/-- First index in a list of lines whose line equals `m`. -/
def lineFind : List Str → Str → Option Nat
  | [], _ => none
  | l :: ls, m => if l = m then some 0 else (lineFind ls m).map (· + 1)

/-- First index `j ≥ start` with `lines[j] = m` (the `for j in range(start,
len(lines))` searches of the fallback scan). -/
def idxFrom (lines : List Str) (m : Str) (start : Nat) : Option Nat :=
  (lineFind (lines.drop start) m).map (· + start)

/-- The fallback line scan (`server.py` lines 174-214), indexed exactly like
the Python `while i < len(lines)` loop.  The fuel is `lines.length + 1`; every
iteration increases `i` by at least one, so the fuel never runs out
(`srcScanAux_fuel` below). -/
def srcScanAux (lines : List Str) : Nat → Nat → List (Str × Str) → Except PErr (List (Str × Str))
  | 0, _, acc => .ok acc.reverse
  | fuel + 1, i, acc =>
    if i < lines.length then
      if lines.getD i [] = search_marker then
        match idxFrom lines separator (i + 1) with
        | none => .error .missingSeparator
        | some sepIdx =>
          match idxFrom lines replace_marker (sepIdx + 1) with
          | none => .error .missingReplace
          | some closeIdx =>
            let searchText := joinNL ((lines.take sepIdx).drop (i + 1))
            let replaceText := joinNL ((lines.take closeIdx).drop (sepIdx + 1))
            if hasMarker searchText then .error (.leakSearch (acc.length + 1))
            else if hasMarker replaceText then .error (.leakReplace (acc.length + 1))
            else srcScanAux lines fuel (closeIdx + 1) ((searchText, replaceText) :: acc)
      else srcScanAux lines fuel (i + 1) acc
    else .ok acc.reverse

def fallbackScan (lines : List Str) : Except PErr (List (Str × Str)) :=
  srcScanAux lines (lines.length + 1) 0 []

/-- Marker-leakage check over the regex matches (`server.py` lines 221-226). -/
def checkLeak : Nat → List (Str × Str) → Except PErr Unit
  | _, [] => .ok ()
  | i, (st, rt) :: rest =>
    if hasMarker st then .error (.leakSearch (i + 1))
    else if hasMarker rt then .error (.leakReplace (i + 1))
    else checkLeak (i + 1) rest

/-- `parse_search_replace_blocks` (`server.py` lines 155-228). -/
def parse_search_replace_blocks (p : Str) : Except PErr (List (Str × Str)) :=
  match validate_block_integrity p with
  | .error e => .error (.vErr e)
  | .ok _ =>
    let found := regexFindall p
    if found.isEmpty then
      match fallbackScan (splitlines p) with
      | .error e => .error e
      | .ok [] => .error .invalidFormat
      | .ok bs => .ok bs
    else
      match checkLeak 0 found with
      | .error e => .error e
      | .ok _ => .ok found

/-! ### The sequential applier (`update_project_memory`, lines 264-291) -/

/-- Apply one block (0-based position `i`) to the current document: count
exact occurrences of the search text; exactly one is replaced, zero or several
fail with the errors of `server.py` lines 278-285. -/
def applyBlock (i : Nat) (doc : Str) (b : Str × Str) : Except AErr Str :=
  let c := strCount doc b.1
  if c = 1 then .ok (strReplace doc b.1 b.2)
  else if 1 < c then .error (.ambiguous (i + 1) c)
  else .error (.notFound (i + 1))

/-- The sequential fold over blocks: block `i+1` is matched against the
document produced by blocks `1..i`. -/
def applySeq : Str → Nat → List (Str × Str) → Except AErr Str
  | doc, _, [] => .ok doc
  | doc, i, b :: rest =>
    match applyBlock i doc b with
    | .error e => .error e
    | .ok d => applySeq d (i + 1) rest

inductive UErr : Type where
  | parseFailed (e : PErr)
  | applyFailed (e : AErr)
deriving DecidableEq

/-- Observable outcome of `update_project_memory`: success carries the new
content and the applied-block count of the success message; `noneOut` models
the (unreachable) `if blocks:` false branch where the Python function would
return `None` without writing. -/
inductive UOut : Type where
  | success (content : Str) (applied : Nat)
  | failure (e : UErr)
  | noneOut
deriving DecidableEq

/-- `update_project_memory` (`server.py` lines 255-302) restricted to its
patching core: the first component is the outcome, the second the list of
write operations performed on the memory file (the single `f.write` on line
289 on success, nothing otherwise). -/
def update_project_memory (orig patch : Str) : UOut × List Str :=
  match parse_search_replace_blocks patch with
  | .error e => (.failure (.parseFailed e), [])
  | .ok blocks =>
    if blocks.isEmpty then (.noneOut, [])
    else
      match applySeq orig 0 blocks with
      | .error e => (.failure (.applyFailed e), [])
      | .ok c => (.success c blocks.length, [c])

/-! ### Decidable equality for `Except` results -/

instance instDecEqExcept {ε α : Type} [DecidableEq ε] [DecidableEq α] :
    DecidableEq (Except ε α)
  | .error e, .error f =>
    if h : e = f then .isTrue (by rw [h]) else .isFalse (fun c => h (Except.error.inj c))
  | .error _, .ok _ => .isFalse (fun c => Except.noConfusion c)
  | .ok _, .error _ => .isFalse (fun c => Except.noConfusion c)
  | .ok a, .ok b =>
    if h : a = b then .isTrue (by rw [h]) else .isFalse (fun c => h (Except.ok.inj c))

/-! ### Scan-state collapse and step lemmas -/

theorem countAux_skip (pat : Str) (k : Nat) :
    ∀ s : Str, countAux pat s k = countAux pat (s.drop k) 0 := by
  induction k with
  | zero => intro s; rw [List.drop_zero]
  | succ k ih =>
    intro s
    cases s with
    | nil => simp [countAux]
    | cons c t => simpa [countAux] using ih t

theorem countAux_hit {pat : Str} (hp : pat ≠ []) {s : Str} (h : pat <+: s) :
    countAux pat s 0 = 1 + countAux pat (s.drop pat.length) 0 := by
  cases s with
  | nil =>
    exact absurd (List.prefix_nil.mp h) hp
  | cons c t =>
    obtain ⟨m, hm⟩ : ∃ m, pat.length = m + 1 :=
      ⟨pat.length - 1, (Nat.succ_pred_eq_of_pos (List.length_pos.mpr hp)).symm⟩
    simp only [countAux, if_pos h, hm, List.drop_succ_cons, Nat.add_sub_cancel]
    rw [countAux_skip]

theorem countAux_no_hit {pat : Str} {c : Char} {t : Str} (h : ¬ pat <+: (c :: t)) :
    countAux pat (c :: t) 0 = countAux pat t 0 := by
  simp [countAux, h]

theorem replaceAux_skip (pat new_ : Str) (k : Nat) :
    ∀ s : Str, replaceAux pat new_ s k = replaceAux pat new_ (s.drop k) 0 := by
  induction k with
  | zero => intro s; rw [List.drop_zero]
  | succ k ih =>
    intro s
    cases s with
    | nil => simp [replaceAux]
    | cons c t => simpa [replaceAux] using ih t

theorem replaceAux_hit {pat : Str} (new_ : Str) (hp : pat ≠ []) {s : Str} (h : pat <+: s) :
    replaceAux pat new_ s 0 = new_ ++ replaceAux pat new_ (s.drop pat.length) 0 := by
  cases s with
  | nil => exact absurd (List.prefix_nil.mp h) hp
  | cons c t =>
    obtain ⟨m, hm⟩ : ∃ m, pat.length = m + 1 :=
      ⟨pat.length - 1, (Nat.succ_pred_eq_of_pos (List.length_pos.mpr hp)).symm⟩
    simp only [replaceAux, if_pos h, hm, List.drop_succ_cons, Nat.add_sub_cancel]
    rw [replaceAux_skip]

theorem replaceAux_no_hit {pat : Str} (new_ : Str) {c : Char} {t : Str}
    (h : ¬ pat <+: (c :: t)) :
    replaceAux pat new_ (c :: t) 0 = c :: replaceAux pat new_ t 0 := by
  simp [replaceAux, h]

/-! ### `findIdx?` characterisation -/

theorem findIdx?_none_iff (pat : Str) :
    ∀ s : Str, findIdx? pat s = none ↔ ∀ k, ¬ pat <+: s.drop k := by
  intro s
  induction s with
  | nil =>
    rw [findIdx?]
    by_cases h : pat <+: ([] : Str)
    · simp only [if_pos h]
      constructor
      · intro c; exact absurd c (by simp)
      · intro hk; exact absurd h (by simpa using hk 0)
    · simp only [if_neg h]
      constructor
      · intro _ k; simpa using h
      · intro _; trivial
  | cons c t ih =>
    rw [findIdx?]
    by_cases h : pat <+: (c :: t)
    · simp only [if_pos h]
      constructor
      · intro hc; exact absurd hc (by simp)
      · intro hk; exact absurd h (by simpa using hk 0)
    · simp only [if_neg h, Option.map_eq_none']
      rw [ih]
      constructor
      · intro hk k
        cases k with
        | zero => simpa using h
        | succ k => simpa [List.drop_succ_cons] using hk k
      · intro hk k
        simpa [List.drop_succ_cons] using hk (k + 1)

theorem findIdx?_some_spec (pat : Str) :
    ∀ (s : Str) (n : Nat), findIdx? pat s = some n →
      pat <+: s.drop n ∧ ∀ m, m < n → ¬ pat <+: s.drop m := by
  intro s
  induction s with
  | nil =>
    intro n h
    rw [findIdx?] at h
    by_cases hc : pat <+: ([] : Str)
    · simp only [if_pos hc, Option.some.injEq] at h
      subst h
      exact ⟨hc, by omega⟩
    · rw [if_neg hc] at h
      exact Option.noConfusion h
  | cons c t ih =>
    intro n h
    rw [findIdx?] at h
    by_cases hc : pat <+: (c :: t)
    · simp only [if_pos hc, Option.some.injEq] at h
      subst h
      exact ⟨hc, by omega⟩
    · simp only [if_neg hc, Option.map_eq_some'] at h
      obtain ⟨m, hm, rfl⟩ := h
      obtain ⟨h1, h2⟩ := ih m hm
      refine ⟨by simpa [List.drop_succ_cons] using h1, ?_⟩
      intro k hk
      cases k with
      | zero => simpa using hc
      | succ k => simpa [List.drop_succ_cons] using h2 k (by omega)

theorem findIdx?_of_first (pat : Str) :
    ∀ (s : Str) (n : Nat), pat <+: s.drop n → (∀ m, m < n → ¬ pat <+: s.drop m) →
      findIdx? pat s = some n := by
  intro s
  induction s with
  | nil =>
    intro n h1 h2
    have hn : n = 0 := by
      by_contra hne
      exact h2 0 (by omega) (by simpa using h1)
    subst hn
    rw [findIdx?, if_pos (by simpa using h1)]
  | cons c t ih =>
    intro n h1 h2
    cases n with
    | zero =>
      rw [findIdx?, if_pos (by simpa using h1)]
    | succ m =>
      have hc : ¬ pat <+: (c :: t) := by simpa using h2 0 (by omega)
      rw [findIdx?, if_neg hc]
      have := ih m (by simpa [List.drop_succ_cons] using h1)
        (fun k hk => by simpa [List.drop_succ_cons] using h2 (k + 1) (by omega))
      simp [this]

theorem findIdx?_bound (pat : Str) :
    ∀ (s : Str) (n : Nat), findIdx? pat s = some n → n + pat.length ≤ s.length := by
  intro s
  induction s with
  | nil =>
    intro n h
    rw [findIdx?] at h
    by_cases hc : pat <+: ([] : Str)
    · simp only [if_pos hc, Option.some.injEq] at h
      subst h
      simpa using hc.length_le
    · rw [if_neg hc] at h
      exact Option.noConfusion h
  | cons c t ih =>
    intro n h
    rw [findIdx?] at h
    by_cases hc : pat <+: (c :: t)
    · simp only [if_pos hc, Option.some.injEq] at h
      subst h
      simpa using hc.length_le
    · simp only [if_neg hc, Option.map_eq_some'] at h
      obtain ⟨m, hm, rfl⟩ := h
      have := ih m hm
      simp only [List.length_cons]
      omega

theorem isSubstr_iff {s pat : Str} : isSubstr s pat = true ↔ pat <:+: s := by
  unfold isSubstr
  constructor
  · intro h
    obtain ⟨n, hn⟩ := Option.isSome_iff_exists.mp h
    obtain ⟨h1, -⟩ := findIdx?_some_spec pat s n hn
    obtain ⟨t2, ht2⟩ := h1
    refine ⟨s.take n, t2, ?_⟩
    rw [List.append_assoc, ht2, List.take_append_drop]
  · rintro ⟨a, b, rfl⟩
    have hocc : pat <+: (a ++ pat ++ b).drop a.length := by
      rw [List.append_assoc, List.drop_left]
      exact ⟨b, rfl⟩
    rcases h : findIdx? pat (a ++ pat ++ b) with _ | n
    · exact absurd hocc ((findIdx?_none_iff pat _).mp h a.length)
    · simp [h]

theorem isSubstr_false_iff {s pat : Str} : isSubstr s pat = false ↔ ¬ pat <:+: s := by
  rw [← isSubstr_iff]
  cases h : isSubstr s pat <;> simp [h]

/-! ### Count / replace decomposition at the first occurrence -/

theorem count_zero_iff {pat : Str} (hp : pat ≠ []) :
    ∀ s : Str, countAux pat s 0 = 0 ↔ findIdx? pat s = none := by
  intro s
  induction s with
  | nil =>
    rw [findIdx?, if_neg (fun h => hp (List.prefix_nil.mp h))]
    simp [countAux]
  | cons c t ih =>
    by_cases h : pat <+: (c :: t)
    · rw [countAux_hit hp h, findIdx?, if_pos h]
      simp
    · rw [countAux_no_hit h, findIdx?, if_neg h, ih]
      simp

theorem count_decomp {pat : Str} (hp : pat ≠ []) :
    ∀ (s : Str) (n : Nat), findIdx? pat s = some n →
      countAux pat s 0 = 1 + countAux pat (s.drop (n + pat.length)) 0 := by
  intro s
  induction s with
  | nil =>
    intro n h
    rw [findIdx?, if_neg (fun hc => hp (List.prefix_nil.mp hc))] at h
    exact Option.noConfusion h
  | cons c t ih =>
    intro n h
    rw [findIdx?] at h
    by_cases hc : pat <+: (c :: t)
    · simp only [if_pos hc, Option.some.injEq] at h
      subst h
      rw [countAux_hit hp hc]
      simp
    · simp only [if_neg hc, Option.map_eq_some'] at h
      obtain ⟨m, hm, rfl⟩ := h
      rw [countAux_no_hit hc, ih m hm]
      simp [Nat.add_right_comm m 1 pat.length]

theorem replace_decomp {pat : Str} (new_ : Str) (hp : pat ≠ []) :
    ∀ (s : Str) (n : Nat), findIdx? pat s = some n →
      replaceAux pat new_ s 0 =
        s.take n ++ new_ ++ replaceAux pat new_ (s.drop (n + pat.length)) 0 := by
  intro s
  induction s with
  | nil =>
    intro n h
    rw [findIdx?, if_neg (fun hc => hp (List.prefix_nil.mp hc))] at h
    exact Option.noConfusion h
  | cons c t ih =>
    intro n h
    rw [findIdx?] at h
    by_cases hc : pat <+: (c :: t)
    · simp only [if_pos hc, Option.some.injEq] at h
      subst h
      rw [replaceAux_hit new_ hp hc]
      simp
    · simp only [if_neg hc, Option.map_eq_some'] at h
      obtain ⟨m, hm, rfl⟩ := h
      rw [replaceAux_no_hit new_ hc, ih m hm]
      simp [Nat.add_right_comm m 1 pat.length]

theorem replace_of_none {pat : Str} (new_ : Str) :
    ∀ s : Str, findIdx? pat s = none → replaceAux pat new_ s 0 = s := by
  intro s
  induction s with
  | nil => intro _; rfl
  | cons c t ih =>
    intro h
    have hspec := (findIdx?_none_iff pat (c :: t)).mp h
    have hc : ¬ pat <+: (c :: t) := by simpa using hspec 0
    rw [replaceAux_no_hit new_ hc, ih]
    rw [findIdx?_none_iff]
    intro k
    simpa [List.drop_succ_cons] using hspec (k + 1)

theorem findIdx?_tail_none {pat : Str} {c : Char} {t : Str}
    (h : findIdx? pat (c :: t) = none) : findIdx? pat t = none := by
  rw [findIdx?_none_iff] at h ⊢
  intro k
  simpa [List.drop_succ_cons] using h (k + 1)

/-! ### Splitting prefixes over an append -/

theorem prefix_append_split {p a b : Str} :
    p <+: a ++ b → (p.length ≤ a.length ∧ p <+: a) ∨ (a <+: p ∧ p.drop a.length <+: b) := by
  induction a generalizing p with
  | nil =>
    intro h
    exact Or.inr ⟨List.nil_prefix, by simpa using h⟩
  | cons x a' ih =>
    intro h
    cases p with
    | nil => exact Or.inl ⟨by simp, List.nil_prefix⟩
    | cons y p' =>
      rw [List.cons_append, List.cons_prefix_cons] at h
      obtain ⟨rfl, h'⟩ := h
      rcases ih h' with ⟨hl, hp⟩ | ⟨hp, hd⟩
      · exact Or.inl ⟨by simpa using Nat.succ_le_succ hl, List.cons_prefix_cons.mpr ⟨rfl, hp⟩⟩
      · exact Or.inr ⟨List.cons_prefix_cons.mpr ⟨rfl, hp⟩, by simpa using hd⟩

theorem prefix_of_length_eq {p q : Str} (h : p <+: q) : p = q.take p.length := by
  obtain ⟨t, rfl⟩ := h
  simp

/-! ### Regions that a scan passes over without a match

`SafePre pat a` says no occurrence of `pat` can start inside `a`, whatever
follows `a`; such a region is transparent to the counting scan. -/

def SafePre (pat a : Str) : Prop :=
  ∀ (z : Str) (k : Nat), k < a.length → ¬ pat <+: (a ++ z).drop k

theorem safePre_append {pat a b : Str} (ha : SafePre pat a) (hb : SafePre pat b) :
    SafePre pat (a ++ b) := by
  intro z k hk
  rw [List.append_assoc]
  by_cases hka : k < a.length
  · exact ha (b ++ z) k hka
  · have : k = a.length + (k - a.length) := by omega
    rw [this, List.drop_append]
    exact hb z (k - a.length) (by simp at hk; omega)

theorem safePre_tail {pat : Str} {c : Char} {a : Str} (h : SafePre pat (c :: a)) :
    SafePre pat a := by
  intro z k hk
  simpa [List.drop_succ_cons] using h z (k + 1) (by simpa using Nat.succ_lt_succ hk)

theorem countAux_safePre {pat a : Str} (ha : SafePre pat a) :
    ∀ t : Str, countAux pat (a ++ t) 0 = countAux pat t 0 := by
  induction a with
  | nil => intro t; rfl
  | cons c a' ih =>
    intro t
    have hc : ¬ pat <+: ((c :: a') ++ t) := by
      simpa using ha t 0 (by simp)
    rw [List.cons_append] at hc ⊢
    rw [countAux_no_hit hc]
    exact ih (safePre_tail ha) t

/-- The key builder: if `pat` contains no newline, is non-empty and is not an
infix of `x`, then no occurrence of `pat` can start inside `x ++ "\n"`:
an occurrence either sits fully inside `x` (excluded) or covers the final
newline (excluded since `pat` is newline-free). -/
theorem safePre_chunk {pat x : Str} (hnl : '\n' ∉ pat)
    (hx : ¬ pat <:+: x) : SafePre pat (x ++ ['\n']) := by
  intro z k hk hpre
  have hkx : k ≤ x.length := by
    simp only [List.length_append, List.length_singleton] at hk
    omega
  rw [List.append_assoc, List.singleton_append,
    List.drop_append_eq_append_drop, Nat.sub_eq_zero_of_le hkx, List.drop_zero] at hpre
  rcases prefix_append_split hpre with ⟨-, hp2⟩ | ⟨hp2, hd⟩
  · exact hx (hp2.isInfix.trans (List.drop_suffix k x).isInfix)
  · by_cases hdl : (x.drop k).length < pat.length
    · -- the occurrence would cover the final newline, but `pat` is newline-free
      rcases hdrop : pat.drop (x.drop k).length with _ | ⟨c, w⟩
      · have h0 := congrArg List.length hdrop
        simp only [List.length_drop, List.length_nil] at h0
        have hld : (x.drop k).length = x.length - k := by simp
        omega
      · have hc : c = '\n' := by
          rw [hdrop] at hd
          exact (List.cons_prefix_cons.mp hd).1
        apply hnl
        have hcmem : c ∈ pat.drop (x.drop k).length := by
          rw [hdrop]; exact List.mem_cons_self c w
        exact hc ▸ List.drop_subset _ pat hcmem
    · -- the occurrence sits fully inside `x`
      have hlen : (x.drop k).length = pat.length := by
        have := hp2.length_le
        omega
      have heq : x.drop k = pat := hp2.eq_of_length hlen
      exact hx (heq ▸ (List.drop_suffix k x).isInfix)

/-! ### Wrappers for non-empty patterns -/

theorem strCount_of_ne {pat : Str} (hp : pat ≠ []) (s : Str) :
    strCount s pat = countAux pat s 0 := by
  cases pat with
  | nil => exact absurd rfl hp
  | cons c t => rfl

theorem strReplace_of_ne {pat : Str} (hp : pat ≠ []) (s new_ : Str) :
    strReplace s pat new_ = replaceAux pat new_ s 0 := by
  cases pat with
  | nil => exact absurd rfl hp
  | cons c t => rfl

/-- A block sequence accepted by the parser is never empty: the regex branch
returns a non-empty match list and the fallback branch turns an empty result
into `invalidFormat`. -/
theorem parse_ok_nonempty (p : Str) (bs : List (Str × Str))
    (h : parse_search_replace_blocks p = .ok bs) : bs ≠ [] := by
  unfold parse_search_replace_blocks at h
  rcases hv : validate_block_integrity p with e | u
  · rw [hv] at h; exact Except.noConfusion h
  · rw [hv] at h
    simp only at h
    by_cases he : (regexFindall p).isEmpty
    · rw [if_pos he] at h
      rcases hf : fallbackScan (splitlines p) with e | bs2
      · rw [hf] at h; exact Except.noConfusion h
      · rw [hf] at h
        cases bs2 with
        | nil => exact Except.noConfusion h
        | cons b rest =>
          cases h
          simp
    · rw [if_neg he] at h
      rcases hl : checkLeak 0 (regexFindall p) with e | u2
      · rw [hl] at h; exact Except.noConfusion h
      · rw [hl] at h
        cases h
        intro hnil
        rw [hnil] at he
        exact he rfl

/-- C2.  On every failure of `update_project_memory` the write trace is empty
(the persisted file keeps its original content); on success the file is
written exactly once, with the result of the complete sequential fold over
all parsed blocks. -/
theorem c2_atomic_write : ∀ orig patch : Str,
    (∃ e, (update_project_memory orig patch).1 = .failure e ∧
      (update_project_memory orig patch).2 = []) ∨
    (∃ bs c, parse_search_replace_blocks patch = .ok bs ∧ applySeq orig 0 bs = .ok c ∧
      (update_project_memory orig patch).1 = .success c bs.length ∧
      (update_project_memory orig patch).2 = [c]) := by
  intro orig patch
  unfold update_project_memory
  rcases hp : parse_search_replace_blocks patch with e | bs
  · exact Or.inl ⟨.parseFailed e, rfl, rfl⟩
  · have hne := parse_ok_nonempty patch bs hp
    have hemp : bs.isEmpty = false := by
      cases bs with
      | nil => exact absurd rfl hne
      | cons b rest => rfl
    simp only [hemp, Bool.false_eq_true, if_false]
    rcases ha : applySeq orig 0 bs with e | c
    · exact Or.inl ⟨.applyFailed e, rfl, rfl⟩
    · exact Or.inr ⟨bs, c, rfl, ha, rfl, rfl⟩

/-- C3.  Per-block semantics: the number of exact occurrences of the search
text decides the outcome — one: replaced; zero: not-found error with the
1-based block index; several: ambiguity error with the index and the count.
The claim's concrete instance: document `"a b a"`, search `"a"` fails with
count 2. -/
theorem c3_match_count_semantics : ∀ (doc s r : Str) (i : Nat),
    (strCount doc s = 1 → applyBlock i doc (s, r) = .ok (strReplace doc s r)) ∧
    (strCount doc s = 0 → applyBlock i doc (s, r) = .error (.notFound (i + 1))) ∧
    (2 ≤ strCount doc s →
      applyBlock i doc (s, r) = .error (.ambiguous (i + 1) (strCount doc s))) ∧
    applyBlock 0 "a b a".data ("a".data, "x".data) = .error (.ambiguous 1 2) := by
  intro doc s r i
  refine ⟨?_, ?_, ?_, by rfl⟩
  · intro h
    simp [applyBlock, h]
  · intro h
    simp [applyBlock, h]
  · intro h
    simp only [applyBlock]
    rw [if_neg (by omega), if_pos (by omega)]

theorem c3_match_count_semantics_witness :
    applyBlock 0 "a b a".data ("a".data, "x".data) = .error (.ambiguous 1 2) :=
  (c3_match_count_semantics "a b a".data "a".data "x".data 0).2.2.1 (by decide)

/-- C4.  Application is a strictly sequential, order-preserving fold: the
blocks after a split point run against the document produced by the blocks
before it.  Concrete instances from the claim: `"foo"` with the two chained
blocks folds to `"baz"`, and the second block alone fails `notFound`. -/
theorem c4_sequential_fold : ∀ (doc : Str) (i : Nat) (bs1 bs2 : List (Str × Str)),
    (applySeq doc i (bs1 ++ bs2) = match applySeq doc i bs1 with
      | .error e => .error e
      | .ok d => applySeq d (i + bs1.length) bs2) ∧
    applySeq "foo".data 0
      [("foo".data, "foobar".data), ("foobar".data, "baz".data)] = .ok "baz".data ∧
    applySeq "foo".data 0 [("foobar".data, "baz".data)] = .error (.notFound 1) := by
  intro doc i bs1 bs2
  refine ⟨?_, by rfl, by rfl⟩
  induction bs1 generalizing doc i with
  | nil => simp [applySeq]
  | cons b rest ih =>
    simp only [List.cons_append, applySeq]
    cases hb : applyBlock i doc b with
    | error e => rfl
    | ok d =>
      dsimp only
      rw [List.append_eq, ih]
      have harith : i + 1 + rest.length = i + (b :: rest).length := by
        simp only [List.length_cons]
        omega
      rw [harith]

/-- C9.  A block with empty search text applied to a non-empty document of
length `n` always fails as ambiguous with count `n + 1` (Python counts an
empty pattern `length + 1` times); against the empty document it succeeds
and the document becomes the replace text. -/
theorem c9_empty_search : ∀ (doc r : Str) (i : Nat),
    (doc ≠ [] →
      applyBlock i doc ([], r) = .error (.ambiguous (i + 1) (doc.length + 1))) ∧
    applyBlock i [] ([], r) = .ok r := by
  intro doc r i
  constructor
  · intro h
    have hpos : 0 < doc.length := List.length_pos.mpr h
    simp only [applyBlock, strCount]
    rw [if_neg (by omega), if_pos (by omega)]
  · simp [applyBlock, strCount, strReplace, emptyIns]

theorem c9_empty_search_witness :
    applyBlock 0 "a".data ([], "r".data) = .error (.ambiguous 1 2) :=
  (c9_empty_search "a".data "r".data 0).1 (by decide)

/-- C10.  Occurrence counting is non-overlapping, so a self-overlapping
search text such as `"aa"` in `"aaa"` counts once, the block applies, and
the replacement rewrites the leftmost occurrence, leaving the tail intact. -/
theorem c10_nonoverlap_leftmost : ∀ (D s r : Str) (n : Nat),
    (s ≠ [] → findIdx? s D = some n → strCount D s = 1 →
      applyBlock 0 D (s, r) = .ok (D.take n ++ r ++ D.drop (n + s.length))) ∧
    strCount "aaa".data "aa".data = 1 ∧
    applyBlock 0 "aaa".data ("aa".data, "x".data) = .ok "xa".data := by
  intro D s r n
  refine ⟨?_, by rfl, by rfl⟩
  intro hs hfind hcount
  have h1 : applyBlock 0 D (s, r) = .ok (strReplace D s r) := by
    simp [applyBlock, hcount]
  rw [h1, strReplace_of_ne hs, replace_decomp r hs D n hfind]
  have hzero : countAux s (D.drop (n + s.length)) 0 = 0 := by
    have := count_decomp hs D n hfind
    rw [strCount_of_ne hs] at hcount
    omega
  rw [replace_of_none r _ ((count_zero_iff hs _).mp hzero)]

theorem c10_nonoverlap_leftmost_witness :
    applyBlock 0 "aaa".data ("aa".data, "x".data) = .ok "xa".data :=
  (c10_nonoverlap_leftmost "aaa".data "aa".data "x".data 0).1
    (by decide) (by decide) (by decide)

/-! ### Shapes of the validator's sub-check results -/

theorem seqCheck_shape : ∀ (ms : List Str) (pos : Nat),
    seqCheck ms pos = .ok () ∨ ∃ p f, seqCheck ms pos = .error (.badSeq p f)
  | a :: b :: c :: rest, pos => by
    by_cases h : a = search_marker ∧ b = separator ∧ c = replace_marker
    · rw [show seqCheck (a :: b :: c :: rest) pos = seqCheck rest (pos + 3) by
        simp [seqCheck, h]]
      exact seqCheck_shape rest (pos + 3)
    · exact Or.inr ⟨pos, [a, b, c], by simp [seqCheck, h]⟩
  | [], _ => Or.inl rfl
  | [_], _ => Or.inl rfl
  | [_, _], _ => Or.inl rfl

theorem nestedCheck_shape : ∀ (secs : List Str) (i : Nat),
    nestedCheck secs i = .ok () ∨ ∃ j, nestedCheck secs i = .error (.nested j) := by
  intro secs
  induction secs with
  | nil => intro _; exact Or.inl rfl
  | cons sec rest ih =>
    intro i
    by_cases h : (isSubstr sec search_marker : Prop) ∧
        pyFind sec replace_marker > pyFind sec search_marker
    · exact Or.inr ⟨i, by simp [nestedCheck, h]⟩
    · rw [show nestedCheck (sec :: rest) i = nestedCheck rest (i + 1) by
        simp [nestedCheck, h]]
      exact ih (i + 1)

theorem nestedCheck_ok (secs : List Str)
    (h : ∀ sec ∈ secs, isSubstr sec search_marker = false) :
    ∀ i, nestedCheck secs i = .ok () := by
  induction secs with
  | nil => intro _; rfl
  | cons sec rest ih =>
    intro i
    have h1 : isSubstr sec search_marker = false := h sec (List.mem_cons_self _ _)
    have hcond : ¬((isSubstr sec search_marker : Prop) ∧
        pyFind sec replace_marker > pyFind sec search_marker) := by
      rintro ⟨hc, -⟩
      rw [h1] at hc
      exact Bool.noConfusion hc
    rw [show nestedCheck (sec :: rest) i = nestedCheck rest (i + 1) by
      simp [nestedCheck, hcond]]
    exact ih (fun s hs => h s (List.mem_cons_of_mem _ hs)) (i + 1)

/-! ### Split pieces never contain the separator they were split on -/

theorem splitAux_skip (pat : Str) (k : Nat) :
    ∀ s : Str, splitAux pat s k = splitAux pat (s.drop k) 0 := by
  induction k with
  | zero => intro s; rw [List.drop_zero]
  | succ k ih =>
    intro s
    cases s with
    | nil => simp [splitAux]
    | cons c t => simpa [splitAux] using ih t

theorem splitAux_head (pat : Str) :
    ∀ s : Str, ∃ h t, splitAux pat s 0 = h :: t ∧ h <+: s := by
  intro s
  induction s with
  | nil => exact ⟨[], [], rfl, List.nil_prefix⟩
  | cons c t ih =>
    by_cases hc : pat <+: (c :: t)
    · exact ⟨[], splitAux pat t (pat.length - 1), by simp [splitAux, hc], List.nil_prefix⟩
    · obtain ⟨h, tl, heq, hpre⟩ := ih
      exact ⟨c :: h, tl, by simp [splitAux, hc, heq, consHead],
        List.cons_prefix_cons.mpr ⟨rfl, hpre⟩⟩

theorem splitAux_pieces {pat : Str} (hp : pat ≠ []) :
    ∀ (s : Str), ∀ l ∈ splitAux pat s 0, ¬ pat <:+: l := by
  suffices H : ∀ (n : Nat) (s : Str), s.length ≤ n → ∀ l ∈ splitAux pat s 0, ¬ pat <:+: l by
    intro s l hl
    exact H s.length s le_rfl l hl
  intro n
  induction n with
  | zero =>
    intro s hs l hl
    have hnil : s = [] := List.length_eq_zero.mp (Nat.le_zero.mp hs)
    subst hnil
    have : l = [] := by simpa [splitAux] using hl
    subst this
    intro hinf
    exact hp (List.infix_nil.mp hinf)
  | succ n ih =>
    intro s hs l hl
    cases s with
    | nil =>
      have : l = [] := by simpa [splitAux] using hl
      subst this
      intro hinf
      exact hp (List.infix_nil.mp hinf)
    | cons c t =>
      by_cases hc : pat <+: (c :: t)
      · rw [show splitAux pat (c :: t) 0 = [] :: splitAux pat t (pat.length - 1) by
          simp [splitAux, hc], splitAux_skip] at hl
        rcases List.mem_cons.mp hl with rfl | hl2
        · intro hinf
          exact hp (List.infix_nil.mp hinf)
        · refine ih (t.drop (pat.length - 1)) ?_ l hl2
          simp only [List.length_drop]
          simp only [List.length_cons] at hs
          omega
      · obtain ⟨h, tl, heq, hpre⟩ := splitAux_head pat t
        rw [show splitAux pat (c :: t) 0 = (c :: h) :: tl by
          simp [splitAux, hc, heq, consHead]] at hl
        have hlen : t.length ≤ n := by
          simp only [List.length_cons] at hs
          omega
        rcases List.mem_cons.mp hl with rfl | hl2
        · intro hinf
          rcases List.infix_cons_iff.mp hinf with hpfx | hinf2
          · exact hc (hpfx.trans (List.cons_prefix_cons.mpr ⟨rfl, hpre⟩))
          · exact ih t hlen h (heq ▸ List.mem_cons_self _ _) hinf2
        · exact ih t hlen l (heq ▸ List.mem_cons_of_mem _ hl2)

theorem pySplit_pieces {pat : Str} (hp : pat ≠ []) (s : Str) :
    ∀ l ∈ pySplit s pat, isSubstr l pat = false := by
  intro l hl
  rw [isSubstr_false_iff]
  cases pat with
  | nil => exact absurd rfl hp
  | cons c t => exact splitAux_pieces hp s l hl

/-! ### C6: the nested-marker check is unreachable -/

/-- Does a validator result carry the nested-marker error? -/
def isNestedErr : Except VErr Unit → Bool
  | .error (.nested _) => true
  | _ => false

/-- A patch whose first block's interior (the text between the first
`<<<<<<< SEARCH` and that block's `>>>>>>> REPLACE`) contains a stray
`<<<<<<< SEARCH`, yet whose marker substring counts are balanced and whose
marker lines form one clean triple. -/
def c6patch : Str :=
  ("<<<<<<< SEARCH\nx <<<<<<< SEARCH y\n=======\nz\n>>>>>>> REPLACE\n" ++
    "w ======= v >>>>>>> REPLACE u").data

/-- C6.  `validate_block_integrity` can never return the nested-marker error:
the check tests whether a section produced by splitting on the SEARCH marker
still contains the SEARCH marker, which is impossible, so on `c6patch` —
whose first block interior does contain a stray opening marker before the
block's closing marker — validation succeeds instead of failing. -/
theorem c6_nested_check_dead :
    (∀ p : Str, isNestedErr (validate_block_integrity p) = false) ∧
    validate_block_integrity c6patch = .ok () ∧
    c6patch = search_marker ++ "\nx <<<<<<< SEARCH y\n=======\nz\n".data ++
      replace_marker ++ "\nw ======= v >>>>>>> REPLACE u".data ∧
    isSubstr "\nx <<<<<<< SEARCH y\n=======\nz\n".data search_marker = true := by
  refine ⟨?_, by rfl, by rfl, by rfl⟩
  intro p
  unfold validate_block_integrity
  by_cases hbal : ¬(strCount p search_marker = strCount p separator ∧
      strCount p separator = strCount p replace_marker)
  · rw [if_pos hbal]
    rfl
  · rw [if_neg hbal]
    rcases seqCheck_shape (((splitlines p).map pyStrip).filter isMarkerLine) 0 with
      hok | ⟨pp, ff, herr⟩
    · simp only [hok]
      have hpieces : ∀ sec ∈ (pySplit p search_marker).tail,
          isSubstr sec search_marker = false := by
        intro sec hsec
        exact pySplit_pieces (by decide) p sec (List.mem_of_mem_tail hsec)
      rw [nestedCheck_ok _ hpieces 1]
      rfl
    · simp only [herr]
      rfl

/-! ### C5: marker balance is counted by substring, not by trimmed line -/

/-- The spec's counting: occurrences of a marker as a whole trimmed line. -/
def lineMarkerCount (p m : Str) : Nat :=
  (((splitlines p).map pyStrip).filter (· == m)).length

/-- C5 counterexample.  In `"a ======="` every per-line marker count is `0`
(the only line does not trim to a marker), so the claim demands that the
balance check pass; the code counts marker substrings anywhere (`0, 1, 0`)
and fails with the unbalanced-markers error. -/
theorem c5_counterexample :
    lineMarkerCount "a =======".data search_marker = 0 ∧
    lineMarkerCount "a =======".data separator = 0 ∧
    lineMarkerCount "a =======".data replace_marker = 0 ∧
    validate_block_integrity "a =======".data = .error (.unbalanced 0 1 0) :=
  ⟨rfl, rfl, rfl, rfl⟩

/-- C5 amended.  The balance check counts non-overlapping substring
occurrences of the three marker literals anywhere in the patch text, and the
unbalanced-markers error (reporting exactly those three counts) is returned
precisely when those counts are not all equal. -/
theorem c5_substring_balance : ∀ (p : Str) (a b c : Nat),
    validate_block_integrity p = .error (.unbalanced a b c) ↔
      a = strCount p search_marker ∧ b = strCount p separator ∧
      c = strCount p replace_marker ∧ ¬(a = b ∧ b = c) := by
  intro p a b c
  unfold validate_block_integrity
  by_cases h : strCount p search_marker = strCount p separator ∧
      strCount p separator = strCount p replace_marker
  · rw [if_neg (not_not_intro h)]
    constructor
    · intro hc
      exfalso
      rcases seqCheck_shape (((splitlines p).map pyStrip).filter isMarkerLine) 0 with
        hok | ⟨pp, ff, herr⟩
      · simp only [hok] at hc
        rcases nestedCheck_shape (pySplit p search_marker).tail 1 with hn | ⟨j, hn⟩
        · rw [hn] at hc
          exact Except.noConfusion hc
        · rw [hn] at hc
          have := Except.error.inj hc
          exact VErr.noConfusion this
      · simp only [herr] at hc
        have := Except.error.inj hc
        exact VErr.noConfusion this
    · rintro ⟨rfl, rfl, rfl, hne⟩
      exact absurd h hne
  · rw [if_pos h]
    constructor
    · intro hc
      have := Except.error.inj hc
      injection this with h1 h2 h3
      exact ⟨h1.symm, h2.symm, h3.symm, by rw [h1, h2, h3] at h; exact h⟩
    · rintro ⟨rfl, rfl, rfl, -⟩
      rfl

/-! ### Decomposing a count-one replacement -/

theorem count_one_decomp {pat : Str} (hp : pat ≠ []) {D : Str}
    (h : strCount D pat = 1) :
    ∃ n, findIdx? pat D = some n ∧ countAux pat (D.drop (n + pat.length)) 0 = 0 := by
  rw [strCount_of_ne hp] at h
  rcases hf : findIdx? pat D with _ | n
  · rw [← count_zero_iff hp] at hf
    omega
  · have := count_decomp hp D n hf
    exact ⟨n, rfl, by omega⟩

theorem replace_count_one {pat : Str} (new_ : Str) (hp : pat ≠ []) {D : Str} {n : Nat}
    (hf : findIdx? pat D = some n) (hz : countAux pat (D.drop (n + pat.length)) 0 = 0) :
    strReplace D pat new_ = D.take n ++ new_ ++ D.drop (n + pat.length) := by
  rw [strReplace_of_ne hp, replace_decomp new_ hp D n hf,
    replace_of_none new_ _ ((count_zero_iff hp _).mp hz)]

theorem decomp_at_find {pat D : Str} {n : Nat} (hf : findIdx? pat D = some n) :
    D = D.take n ++ pat ++ D.drop (n + pat.length) ∧ (D.take n).length = n := by
  have hb := findIdx?_bound pat D n hf
  obtain ⟨hpre, -⟩ := findIdx?_some_spec pat D n hf
  obtain ⟨w, hw⟩ := hpre
  have hwd : w = D.drop (n + pat.length) := by
    have h1 : (D.drop n).drop pat.length = w := by
      rw [← hw, List.drop_left]
    rw [← h1, List.drop_drop, Nat.add_comm]
  constructor
  · calc D = D.take n ++ D.drop n := (List.take_append_drop n D).symm
    _ = D.take n ++ (pat ++ w) := by rw [hw]
    _ = D.take n ++ pat ++ D.drop (n + pat.length) := by rw [hwd, List.append_assoc]
  · rw [List.length_take]
    omega

/-- C7 counterexample.  Document `"ab"`, block `("b", "aa")`: the search text
occurs exactly once, the forward application yields `"aaa"`, the inverse block
`("aa", "b")` also matches exactly once but replaces the leftmost overlapping
occurrence, producing `"ba"`, not the original `"ab"`: the round trip fails. -/
theorem c7_counterexample :
    strCount "ab".data "b".data = 1 ∧
    applySeq "ab".data 0 [("b".data, "aa".data)] = .ok "aaa".data ∧
    applySeq "aaa".data 0 [("aa".data, "b".data)] = .ok "ba".data ∧
    ("ba".data == "ab".data) = false :=
  ⟨rfl, rfl, rfl, rfl⟩

/-- C7 amended.  The round trip does hold when additionally the inverse
block's search text (the replace text `r`) occurs exactly once in the patched
document and its leftmost occurrence there is the occurrence just inserted
(i.e. at the same index at which the forward search text was found). -/
theorem c7_round_trip : ∀ D s r : Str,
    strCount D s = 1 →
    strCount (strReplace D s r) r = 1 →
    findIdx? r (strReplace D s r) = findIdx? s D →
    applySeq D 0 [(s, r)] = .ok (strReplace D s r) ∧
    applySeq (strReplace D s r) 0 [(r, s)] = .ok D := by
  intro D s r h1 h2 h3
  have hfwd : applySeq D 0 [(s, r)] = .ok (strReplace D s r) := by
    simp [applySeq, applyBlock, h1]
  refine ⟨hfwd, ?_⟩
  suffices hkey : strReplace (strReplace D s r) r s = D by
    simp [applySeq, applyBlock, h2, hkey]
  by_cases hs : s = []
  · -- empty search text: the document must have been empty
    subst hs
    have hD : D = [] := by
      simp only [strCount] at h1
      exact List.length_eq_zero.mp (by omega)
    subst hD
    have hD' : strReplace ([] : Str) [] r = r := by
      simp [strReplace, emptyIns]
    rw [hD']
    by_cases hr : r = []
    · subst hr
      rfl
    · have hf : findIdx? r r = some 0 :=
        findIdx?_of_first r r 0 (by simp) (by omega)
      rw [strReplace_of_ne hr, replace_decomp ([] : Str) hr r 0 hf]
      simp [replaceAux]
  · -- non-empty search text
    obtain ⟨n, hf, hz⟩ := count_one_decomp hs h1
    have heD' : strReplace D s r = D.take n ++ r ++ D.drop (n + s.length) :=
      replace_count_one r hs hf hz
    obtain ⟨hD, hlen⟩ := decomp_at_find hf
    by_cases hr : r = []
    · -- empty replace text: the patched document must be empty
      subst hr
      have hD'nil : strReplace D s [] = [] := by
        simp only [strCount] at h2
        exact List.length_eq_zero.mp (by omega)
      rw [hD'nil]
      have h0 : strReplace ([] : Str) [] s = s := by
        simp [strReplace, emptyIns]
      rw [h0]
      rw [hD'nil] at heD'
      have hparts : D.take n = [] ∧ D.drop (n + s.length) = [] := by
        have h' := heD'.symm
        simpa [List.append_eq_nil] using h'
      rw [hD, hparts.1, hparts.2]
      simp
  
    · -- non-empty replace text
      obtain ⟨m, hf2, hz2⟩ := count_one_decomp hr h2
      have hm : n = m := Option.some.inj (hf.symm.trans (h3.symm.trans hf2))
      subst hm
      have hrepl := replace_count_one s hr hf2 hz2
      rw [hrepl, heD']
      have htake : (D.take n ++ r ++ D.drop (n + s.length)).take n = D.take n := by
        have h0 := List.take_left (D.take n) (r ++ D.drop (n + s.length))
        rw [hlen] at h0
        rw [List.append_assoc]
        exact h0
      have hdrop : (D.take n ++ r ++ D.drop (n + s.length)).drop (n + r.length) =
          D.drop (n + s.length) := by
        have h0 := List.drop_left (D.take n ++ r) (D.drop (n + s.length))
        have hlen2 : (D.take n ++ r).length = n + r.length := by
          simp [hlen]
        rw [hlen2] at h0
        exact h0
      rw [htake, hdrop]
      exact hD.symm

theorem c7_round_trip_witness :
    applySeq "ax".data 0 [("x".data, "y".data)] = .ok "ay".data ∧
    applySeq "ay".data 0 [("y".data, "x".data)] = .ok "ax".data :=
  c7_round_trip "ax".data "x".data "y".data (by decide) (by decide) (by decide)

/-! ### C8: the fallback line scan, stated from the spec's words

`specFallbackScan` is written from the specification's description of the
fallback strategy (section 4.2): find each `SEARCH-OPEN` line, then the next
`SECTION-SEPARATOR` line after it (missing-separator error if none), then the
next `REPLACE-CLOSE` line after that (missing-replace error if none); the
payloads are the lines strictly between the markers joined with newlines; the
scan resumes immediately after the consumed closing marker; the marker-leakage
guard of section 4.2 applies to each extracted block. -/

/-- Split a list of lines at the first line equal to `m`. -/
def breakOnLine (m : Str) : List Str → Option (List Str × List Str)
  | [] => none
  | l :: ls =>
    if l = m then some ([], ls)
    else (breakOnLine m ls).map (fun p => (l :: p.1, p.2))

theorem breakOnLine_lt (m : Str) : ∀ (ls : List Str) (a b : List Str),
    breakOnLine m ls = some (a, b) → b.length < ls.length := by
  intro ls
  induction ls with
  | nil => intro a b h; exact Option.noConfusion h
  | cons l ls ih =>
    intro a b h
    by_cases hl : l = m
    · simp only [breakOnLine, if_pos hl, Option.some.injEq, Prod.mk.injEq] at h
      obtain ⟨-, rfl⟩ := h
      simp
    · simp only [breakOnLine, if_neg hl, Option.map_eq_some'] at h
      obtain ⟨⟨a', b'⟩, hab, heq⟩ := h
      have hb : b = b' := (congrArg Prod.snd heq).symm
      subst hb
      exact Nat.lt_succ_of_lt (ih a' b hab)

def specScanAux : Nat → List Str → List (Str × Str) → Except PErr (List (Str × Str))
  | 0, _, acc => .ok acc.reverse
  | fuel + 1, lines, acc =>
    match lines with
    | [] => .ok acc.reverse
    | l :: rest =>
      if l = search_marker then
        match breakOnLine separator rest with
        | none => .error .missingSeparator
        | some (sLines, rest2) =>
          match breakOnLine replace_marker rest2 with
          | none => .error .missingReplace
          | some (rLines, rest3) =>
            if hasMarker (joinNL sLines) then .error (.leakSearch (acc.length + 1))
            else if hasMarker (joinNL rLines) then .error (.leakReplace (acc.length + 1))
            else specScanAux fuel rest3 ((joinNL sLines, joinNL rLines) :: acc)
      else specScanAux fuel rest acc

/-- Fuel irrelevance: any fuel above the number of remaining lines gives the
same result, so `length + 1` in `specFallbackScan` is an implementation
device, not part of the behaviour. -/
theorem specScanAux_fuel : ∀ (f1 : Nat) (f2 : Nat) (lines : List Str)
    (acc : List (Str × Str)), lines.length < f1 → lines.length < f2 →
    specScanAux f1 lines acc = specScanAux f2 lines acc := by
  intro f1
  induction f1 with
  | zero =>
    intro f2 lines acc h1 _
    omega
  | succ f1 ih =>
    intro f2 lines acc h1 h2
    cases f2 with
    | zero => omega
    | succ f2 =>
      cases lines with
      | nil => rfl
      | cons l rest =>
        simp only [specScanAux]
        by_cases hl : l = search_marker
        · rw [if_pos hl, if_pos hl]
          cases hsep : breakOnLine separator rest with
          | none => rfl
          | some p =>
            obtain ⟨sLines, rest2⟩ := p
            dsimp only
            have hr2 := breakOnLine_lt separator rest sLines rest2 hsep
            cases hcl : breakOnLine replace_marker rest2 with
            | none => rfl
            | some q =>
              obtain ⟨rLines, rest3⟩ := q
              dsimp only
              have hr3 := breakOnLine_lt replace_marker rest2 rLines rest3 hcl
              by_cases hk1 : hasMarker (joinNL sLines)
              · simp [hk1]
              · by_cases hk2 : hasMarker (joinNL rLines)
                · simp [hk1, hk2]
                · simp only [hk1, hk2, Bool.false_eq_true, if_false]
                  refine ih f2 rest3 _ ?_ ?_
                  · simp only [List.length_cons] at h1
                    omega
                  · simp only [List.length_cons] at h2
                    omega
        · rw [if_neg hl, if_neg hl]
          refine ih f2 rest acc ?_ ?_
          · simp only [List.length_cons] at h1
            omega
          · simp only [List.length_cons] at h2
            omega

def specFallbackScan (lines : List Str) : Except PErr (List (Str × Str)) :=
  specScanAux (lines.length + 1) lines []

theorem breakOnLine_eq (m : Str) : ∀ ls : List Str,
    breakOnLine m ls = (lineFind ls m).map (fun j => (ls.take j, ls.drop (j + 1))) := by
  intro ls
  induction ls with
  | nil => rfl
  | cons l ls ih =>
    by_cases hl : l = m
    · simp [breakOnLine, lineFind, hl]
    · simp only [breakOnLine, lineFind, if_neg hl, ih]
      cases hf : lineFind ls m with
      | none => rfl
      | some j => simp [List.take_succ_cons, List.drop_succ_cons]

theorem drop_getD_cons : ∀ (lines : List Str) (i : Nat), i < lines.length →
    lines.drop i = lines.getD i [] :: lines.drop (i + 1) := by
  intro lines
  induction lines with
  | nil => intro i h; simp at h
  | cons l ls ih =>
    intro i h
    cases i with
    | zero => simp
    | succ i =>
      simp only [List.drop_succ_cons, List.getD_cons_succ]
      exact ih i (by simpa using Nat.lt_of_succ_lt_succ h)

theorem take_drop_window : ∀ (l : List Str) (a b : Nat),
    (l.take (a + b)).drop a = (l.drop a).take b := by
  intro l
  induction l with
  | nil => intro a b; simp
  | cons x xs ih =>
    intro a b
    cases a with
    | zero => simp
    | succ a =>
      simpa [List.take_succ_cons, List.drop_succ_cons, Nat.succ_add] using ih a b

theorem srcScan_eq_spec : ∀ (fuel : Nat) (lines : List Str) (i : Nat)
    (acc : List (Str × Str)), lines.length < fuel + i →
    srcScanAux lines fuel i acc = specScanAux fuel (lines.drop i) acc := by
  intro fuel
  induction fuel with
  | zero =>
    intro lines i acc h
    rfl
  | succ fuel ih =>
    intro lines i acc h
    by_cases hi : i < lines.length
    · have hdi := drop_getD_cons lines i hi
      by_cases hm : lines.getD i [] = search_marker
      · rw [hdi]
        simp only [srcScanAux, specScanAux, if_pos hi, if_pos hm, idxFrom,
          breakOnLine_eq]
        cases hfind : lineFind (lines.drop (i + 1)) separator with
        | none => rfl
        | some j =>
          simp only [Option.map_some']
          have hsearch : (lines.take (j + (i + 1))).drop (i + 1) =
              (lines.drop (i + 1)).take j := by
            rw [show j + (i + 1) = (i + 1) + j by omega]
            exact take_drop_window lines (i + 1) j
          have hrest2 : (lines.drop (i + 1)).drop (j + 1) =
              lines.drop (j + (i + 1) + 1) := by
            rw [List.drop_drop]
            congr 1
            omega
          rw [hrest2]
          cases hfind2 : lineFind (lines.drop (j + (i + 1) + 1)) replace_marker with
          | none => rfl
          | some j2 =>
            simp only [Option.map_some']
            have hreplace : (lines.take (j2 + (j + (i + 1) + 1))).drop (j + (i + 1) + 1) =
                (lines.drop (j + (i + 1) + 1)).take j2 := by
              rw [show j2 + (j + (i + 1) + 1) = (j + (i + 1) + 1) + j2 by omega]
              exact take_drop_window lines (j + (i + 1) + 1) j2
            have hrest3 : (lines.drop (j + (i + 1) + 1)).drop (j2 + 1) =
                lines.drop (j2 + (j + (i + 1) + 1) + 1) := by
              rw [List.drop_drop]
              congr 1
              omega
            rw [hsearch, hreplace, hrest3]
            by_cases hleak1 : hasMarker (joinNL ((lines.drop (i + 1)).take j))
            · simp [hleak1]
            · by_cases hleak2 :
                  hasMarker (joinNL ((lines.drop (j + (i + 1) + 1)).take j2))
              · simp [hleak1, hleak2]
              · simp only [hleak1, hleak2, Bool.false_eq_true, if_false]
                exact ih lines (j2 + (j + (i + 1) + 1) + 1) _ (by omega)
      · rw [hdi]
        simp only [srcScanAux, specScanAux, if_pos hi, if_neg hm]
        exact ih lines (i + 1) acc (by omega)
    · have hd : lines.drop i = [] := List.drop_eq_nil_of_le (by omega)
      rw [hd]
      simp only [srcScanAux, specScanAux, if_neg hi]

/-- A patch the regex cannot match (empty payloads with no payload line), so
parsing must go through the fallback line scan. -/
def c8patch : Str := "<<<<<<< SEARCH\n=======\n>>>>>>> REPLACE".data

/-- C8.  Whenever the primary regex extraction yields zero blocks, the parser
behaves exactly as the spec's line-by-line fallback scan describes: walk the
lines; at each `SEARCH-OPEN` line fail `missingSeparator` if no separator line
follows, fail `missingReplace` if no closing line follows the separator,
otherwise take the lines strictly between the markers (joined with newlines)
as payloads and resume after the consumed closing line; if the scan produces
zero blocks, fail with the generic invalid-format error. -/
theorem c8_fallback_line_scan : ∀ p : Str,
    regexFindall p = [] →
    parse_search_replace_blocks p =
      (match validate_block_integrity p with
      | .error e => .error (.vErr e)
      | .ok _ =>
        match specFallbackScan (splitlines p) with
        | .error e => .error e
        | .ok [] => .error .invalidFormat
        | .ok bs => .ok bs) := by
  intro p h
  unfold parse_search_replace_blocks fallbackScan specFallbackScan
  cases hv : validate_block_integrity p with
  | error e => rfl
  | ok u =>
    simp only [h, List.isEmpty_nil, if_true]
    rw [srcScan_eq_spec ((splitlines p).length + 1) (splitlines p) 0 [] (by omega),
      List.drop_zero]

theorem c8_fallback_line_scan_witness :
    regexFindall c8patch = [] ∧
    parse_search_replace_blocks c8patch =
      (match validate_block_integrity c8patch with
      | .error e => .error (.vErr e)
      | .ok _ =>
        match specFallbackScan (splitlines c8patch) with
        | .error e => .error e
        | .ok [] => .error .invalidFormat
        | .ok bs => .ok bs) :=
  ⟨by decide, c8_fallback_line_scan c8patch (by decide)⟩

/-! ### C1: canonical block form -/

/-- A text chunk terminated by a newline. -/
def chunkNl (x : Str) : Str := x ++ ['\n']

/-- The exact canonical layout of one block:
`<<<<<<< SEARCH\n<search>\n=======\n<replace>\n>>>>>>> REPLACE\n`. -/
def blkText (b : Str × Str) : Str :=
  chunkNl search_marker ++ chunkNl b.1 ++ chunkNl separator ++
    chunkNl b.2 ++ chunkNl replace_marker

/-- A patch in canonical form: the concatenation of canonical blocks. -/
def canonicalPatch : List (Str × Str) → Str
  | [] => []
  | b :: bs => blkText b ++ canonicalPatch bs

/-- A payload usable in a canonical block: it contains no marker literal as a
substring and no carriage return. -/
def goodPayload (x : Str) : Prop := hasMarker x = false ∧ '\r' ∉ x

instance : DecidablePred goodPayload := fun x => by
  unfold goodPayload
  infer_instance

def goodBlocks (bs : List (Str × Str)) : Prop :=
  ∀ b ∈ bs, goodPayload b.1 ∧ goodPayload b.2

instance : DecidablePred goodBlocks := fun bs => by
  unfold goodBlocks
  exact List.decidableBAll _ bs

theorem hasMarker_false_elim {x : Str} (h : hasMarker x = false) :
    ¬ search_marker <:+: x ∧ ¬ separator <:+: x ∧ ¬ replace_marker <:+: x := by
  unfold hasMarker at h
  simp only [Bool.or_eq_false_iff] at h
  exact ⟨isSubstr_false_iff.mp h.1.1, isSubstr_false_iff.mp h.1.2,
    isSubstr_false_iff.mp h.2⟩

theorem blk_assoc (s r T : Str) :
    blkText (s, r) ++ T =
      lit1 ++ (s ++ (lit2 ++ (r ++ (lit3 ++ ('\n' :: T))))) := by
  simp [blkText, chunkNl, lit1, lit2, lit3, List.append_assoc]

theorem findIdx?_lit1_at0 (z : Str) : findIdx? lit1 (lit1 ++ z) = some 0 :=
  findIdx?_of_first lit1 (lit1 ++ z) 0 (by rw [List.drop_zero]; exact ⟨z, rfl⟩)
    (by omega)

theorem findIdx?_mid {s : Str} (z : Str) (hsep : ¬ separator <:+: s) :
    findIdx? lit2 (s ++ (lit2 ++ z)) = some s.length := by
  apply findIdx?_of_first
  · rw [List.drop_left]
    exact ⟨z, rfl⟩
  · intro k hk hpre
    rw [List.drop_append_eq_append_drop, Nat.sub_eq_zero_of_le (le_of_lt hk),
      List.drop_zero] at hpre
    have hsep_lit2 : separator <:+: lit2 := ⟨['\n'], ['\n'], rfl⟩
    rcases prefix_append_split hpre with ⟨-, hp2⟩ | ⟨hp2, hd⟩
    · exact hsep ((hsep_lit2.trans hp2.isInfix).trans (List.drop_suffix k s).isInfix)
    · have hdl : (s.drop k).length = s.length - k := by simp
      have hd1 : 1 ≤ (s.drop k).length := by omega
      have hle : (s.drop k).length ≤ lit2.length := hp2.length_le
      have hsk : s.drop k = lit2.take (s.drop k).length := prefix_of_length_eq hp2
      rcases prefix_append_split hd with ⟨-, hdp⟩ | ⟨hpp, -⟩
      · have hdrop : lit2.drop (s.drop k).length =
            lit2.take (lit2.drop (s.drop k).length).length := prefix_of_length_eq hdp
        have hlen9 : lit2.length = 9 := rfl
        have hdec : ∀ d, d < 10 → 1 ≤ d →
            lit2.drop d = lit2.take (9 - d) →
            isSubstr (lit2.take d) separator = true := by decide
        have hinf : isSubstr (lit2.take (s.drop k).length) separator = true := by
          refine hdec (s.drop k).length (by omega) hd1 ?_
          rw [show (9 : Nat) - (s.drop k).length =
            (lit2.drop (s.drop k).length).length by simp [hlen9]]
          exact hdrop
        apply hsep
        have := isSubstr_iff.mp hinf
        rw [← hsk] at this
        exact this.trans (List.drop_suffix k s).isInfix
      · have := hpp.length_le
        simp only [List.length_drop] at this
        have hlen9 : lit2.length = 9 := rfl
        omega

theorem findIdx?_close {r : Str} (z : Str) (hcl : ¬ replace_marker <:+: r) :
    findIdx? lit3 (r ++ (lit3 ++ z)) = some r.length := by
  apply findIdx?_of_first
  · rw [List.drop_left]
    exact ⟨z, rfl⟩
  · intro k hk hpre
    rw [List.drop_append_eq_append_drop, Nat.sub_eq_zero_of_le (le_of_lt hk),
      List.drop_zero] at hpre
    have hcl_lit3 : replace_marker <:+: lit3 := ⟨['\n'], [], by simp [lit3]⟩
    rcases prefix_append_split hpre with ⟨-, hp2⟩ | ⟨hp2, hd⟩
    · exact hcl ((hcl_lit3.trans hp2.isInfix).trans (List.drop_suffix k r).isInfix)
    · have hdl : (r.drop k).length = r.length - k := by simp
      have hd1 : 1 ≤ (r.drop k).length := by omega
      have hle : (r.drop k).length ≤ lit3.length := hp2.length_le
      have hsk : r.drop k = lit3.take (r.drop k).length := prefix_of_length_eq hp2
      rcases prefix_append_split hd with ⟨-, hdp⟩ | ⟨hpp, -⟩
      · have hdrop : lit3.drop (r.drop k).length =
            lit3.take (lit3.drop (r.drop k).length).length := prefix_of_length_eq hdp
        have hlen16 : lit3.length = 16 := rfl
        have hdec : ∀ d, d < 17 → 1 ≤ d →
            lit3.drop d = lit3.take (16 - d) →
            isSubstr (lit3.take d) replace_marker = true := by decide
        have hinf : isSubstr (lit3.take (r.drop k).length) replace_marker = true := by
          refine hdec (r.drop k).length (by omega) hd1 ?_
          rw [show (16 : Nat) - (r.drop k).length =
            (lit3.drop (r.drop k).length).length by simp [hlen16]]
          exact hdrop
        apply hcl
        have := isSubstr_iff.mp hinf
        rw [← hsk] at this
        exact this.trans (List.drop_suffix k r).isInfix
      · have := hpp.length_le
        simp only [List.length_drop] at this
        have hlen16 : lit3.length = 16 := rfl
        omega

theorem findallAux_block (fuel : Nat) (s r T : Str)
    (hs : ¬ separator <:+: s) (hr : ¬ replace_marker <:+: r) :
    findallAux (fuel + 1) (blkText (s, r) ++ T) =
      (s, r) :: findallAux fuel ('\n' :: T) := by
  rw [blk_assoc]
  have h1 : findIdx? lit1 (lit1 ++ (s ++ (lit2 ++ (r ++ (lit3 ++ ('\n' :: T)))))) =
      some 0 := findIdx?_lit1_at0 _
  have h2 : (lit1 ++ (s ++ (lit2 ++ (r ++ (lit3 ++ ('\n' :: T)))))).drop
      (0 + lit1.length) = s ++ (lit2 ++ (r ++ (lit3 ++ ('\n' :: T)))) := by
    rw [Nat.zero_add, List.drop_left]
  have h3 : findIdx? lit2 (s ++ (lit2 ++ (r ++ (lit3 ++ ('\n' :: T))))) =
      some s.length := findIdx?_mid _ hs
  have h4 : (s ++ (lit2 ++ (r ++ (lit3 ++ ('\n' :: T))))).take s.length = s :=
    List.take_left _ _
  have h5 : (s ++ (lit2 ++ (r ++ (lit3 ++ ('\n' :: T))))).drop
      (s.length + lit2.length) = r ++ (lit3 ++ ('\n' :: T)) := by
    rw [show s.length + lit2.length = (s ++ lit2).length by simp,
      ← List.append_assoc, List.drop_left]
  have h6 : findIdx? lit3 (r ++ (lit3 ++ ('\n' :: T))) = some r.length :=
    findIdx?_close _ hr
  have h7 : (r ++ (lit3 ++ ('\n' :: T))).take r.length = r := List.take_left _ _
  have h8 : (r ++ (lit3 ++ ('\n' :: T))).drop (r.length + lit3.length) =
      '\n' :: T := by
    rw [show r.length + lit3.length = (r ++ lit3).length by simp,
      ← List.append_assoc, List.drop_left]
  simp only [findallAux, h1, h2, h3, h4, h5, h6, h7, h8]

theorem findallAux_newline (fuel : Nat) (T : Str) :
    findallAux (fuel + 1) ('\n' :: T) = findallAux (fuel + 1) T := by
  have h1 : findIdx? lit1 ('\n' :: T) = (findIdx? lit1 T).map (· + 1) := by
    rw [findIdx?.eq_def]
    rw [if_neg]
    intro hc
    rw [show lit1 = '<' :: ("<<<<<< SEARCH".data ++ ['\n']) from rfl] at hc
    exact absurd (List.cons_prefix_cons.mp hc).1 (by decide)
  simp only [findallAux, h1]
  cases h2 : findIdx? lit1 T with
  | none => rfl
  | some p =>
    simp only [Option.map_some']
    have h3 : ('\n' :: T).drop (p + 1 + lit1.length) = T.drop (p + lit1.length) := by
      rw [show p + 1 + lit1.length = (p + lit1.length) + 1 by omega,
        List.drop_succ_cons]
    rw [h3]

theorem findallAux_canonical : ∀ (bs : List (Str × Str)) (fuel : Nat),
    bs.length < fuel → goodBlocks bs →
    findallAux fuel (canonicalPatch bs) = bs := by
  intro bs
  induction bs with
  | nil =>
    intro fuel h _
    cases fuel with
    | zero => omega
    | succ f => rfl
  | cons b bs ih =>
    intro fuel h hgood
    obtain ⟨s, r⟩ := b
    obtain ⟨⟨hs1, -⟩, hr1, -⟩ := hgood (s, r) (List.mem_cons_self _ _)
    have hs := (hasMarker_false_elim hs1).2.1
    have hr := (hasMarker_false_elim hr1).2.2
    cases fuel with
    | zero => omega
    | succ f =>
      rw [show canonicalPatch ((s, r) :: bs) = blkText (s, r) ++ canonicalPatch bs
        from rfl]
      rw [findallAux_block f s r _ hs hr]
      cases f with
      | zero =>
        simp only [List.length_cons] at h
        omega
      | succ f2 =>
        rw [findallAux_newline f2 (canonicalPatch bs)]
        rw [ih (f2 + 1) (by simp only [List.length_cons] at h; omega)
          (fun b hb => hgood b (List.mem_cons_of_mem _ hb))]

theorem canonical_length_ge : ∀ bs : List (Str × Str),
    bs.length ≤ (canonicalPatch bs).length := by
  intro bs
  induction bs with
  | nil => simp [canonicalPatch]
  | cons b bs ih =>
    simp only [canonicalPatch, List.length_append, List.length_cons]
    have : 1 ≤ (blkText b).length := by
      simp only [blkText, chunkNl, List.length_append, List.length_singleton]
      omega
    omega

theorem regexFindall_canonical (bs : List (Str × Str)) (hgood : goodBlocks bs) :
    regexFindall (canonicalPatch bs) = bs := by
  unfold regexFindall
  exact findallAux_canonical bs _ (by have := canonical_length_ge bs; omega) hgood

/-! ### Marker substring counts of a canonical patch -/

theorem safePre_nil {m : Str} : SafePre m [] := by
  intro z k hk
  simp at hk

theorem safePre_nl {m : Str} (hnl : '\n' ∉ m) (hm : m ≠ []) : SafePre m ['\n'] := by
  have h := safePre_chunk (x := ([] : Str)) hnl
    (fun hc => hm (List.infix_nil.mp hc))
  simpa using h

theorem countAux_block {m : Str} (hm : m ≠ []) {A B : Str} (T : Str)
    (hA : SafePre m A) (hB : SafePre m B) :
    countAux m (A ++ (m ++ (B ++ T))) 0 = 1 + countAux m T 0 := by
  rw [countAux_safePre hA, countAux_hit hm ⟨B ++ T, rfl⟩]
  rw [show (m ++ (B ++ T)).drop m.length = B ++ T from List.drop_left _ _]
  rw [countAux_safePre hB]

theorem count_open_canonical : ∀ bs : List (Str × Str), goodBlocks bs →
    countAux search_marker (canonicalPatch bs) 0 = bs.length := by
  intro bs
  induction bs with
  | nil => intro _; rfl
  | cons b bs ih =>
    intro hgood
    obtain ⟨s, r⟩ := b
    obtain ⟨⟨hs1, -⟩, hr1, -⟩ := hgood (s, r) (List.mem_cons_self _ _)
    have hshape : canonicalPatch ((s, r) :: bs) =
        [] ++ (search_marker ++
          (((((['\n'] ++ chunkNl s) ++ chunkNl separator) ++ chunkNl r) ++
            chunkNl replace_marker) ++ canonicalPatch bs)) := by
      simp [canonicalPatch, blkText, chunkNl, List.append_assoc]
    have hnl : '\n' ∉ search_marker := by decide
    have hm : search_marker ≠ [] := by decide
    have hB : SafePre search_marker
        ((((['\n'] ++ chunkNl s) ++ chunkNl separator) ++ chunkNl r) ++
          chunkNl replace_marker) := by
      refine safePre_append (safePre_append (safePre_append (safePre_append
        (safePre_nl hnl hm) ?_) ?_) ?_) ?_
      · exact safePre_chunk hnl (hasMarker_false_elim hs1).1
      · exact safePre_chunk hnl (isSubstr_false_iff.mp (by decide))
      · exact safePre_chunk hnl (hasMarker_false_elim hr1).1
      · exact safePre_chunk hnl (isSubstr_false_iff.mp (by decide))
    rw [hshape, countAux_block hm _ safePre_nil hB,
      ih (fun b hb => hgood b (List.mem_cons_of_mem _ hb))]
    simp [Nat.add_comm]

theorem count_sep_canonical : ∀ bs : List (Str × Str), goodBlocks bs →
    countAux separator (canonicalPatch bs) 0 = bs.length := by
  intro bs
  induction bs with
  | nil => intro _; rfl
  | cons b bs ih =>
    intro hgood
    obtain ⟨s, r⟩ := b
    obtain ⟨⟨hs1, -⟩, hr1, -⟩ := hgood (s, r) (List.mem_cons_self _ _)
    have hshape : canonicalPatch ((s, r) :: bs) =
        (chunkNl search_marker ++ chunkNl s) ++ (separator ++
          (((['\n'] ++ chunkNl r) ++ chunkNl replace_marker) ++
            canonicalPatch bs)) := by
      simp [canonicalPatch, blkText, chunkNl, List.append_assoc]
    have hnl : '\n' ∉ separator := by decide
    have hm : separator ≠ [] := by decide
    have hA : SafePre separator (chunkNl search_marker ++ chunkNl s) :=
      safePre_append (safePre_chunk hnl (isSubstr_false_iff.mp (by decide)))
        (safePre_chunk hnl (hasMarker_false_elim hs1).2.1)
    have hB : SafePre separator
        ((['\n'] ++ chunkNl r) ++ chunkNl replace_marker) :=
      safePre_append (safePre_append (safePre_nl hnl hm)
          (safePre_chunk hnl (hasMarker_false_elim hr1).2.1))
        (safePre_chunk hnl (isSubstr_false_iff.mp (by decide)))
    rw [hshape, countAux_block hm _ hA hB,
      ih (fun b hb => hgood b (List.mem_cons_of_mem _ hb))]
    simp [Nat.add_comm]

theorem count_close_canonical : ∀ bs : List (Str × Str), goodBlocks bs →
    countAux replace_marker (canonicalPatch bs) 0 = bs.length := by
  intro bs
  induction bs with
  | nil => intro _; rfl
  | cons b bs ih =>
    intro hgood
    obtain ⟨s, r⟩ := b
    obtain ⟨⟨hs1, -⟩, hr1, -⟩ := hgood (s, r) (List.mem_cons_self _ _)
    have hshape : canonicalPatch ((s, r) :: bs) =
        (((chunkNl search_marker ++ chunkNl s) ++ chunkNl separator) ++
          chunkNl r) ++ (replace_marker ++ (['\n'] ++ canonicalPatch bs)) := by
      simp [canonicalPatch, blkText, chunkNl, List.append_assoc]
    have hnl : '\n' ∉ replace_marker := by decide
    have hm : replace_marker ≠ [] := by decide
    have hA : SafePre replace_marker
        (((chunkNl search_marker ++ chunkNl s) ++ chunkNl separator) ++
          chunkNl r) := by
      refine safePre_append (safePre_append (safePre_append ?_ ?_) ?_) ?_
      · exact safePre_chunk hnl (isSubstr_false_iff.mp (by decide))
      · exact safePre_chunk hnl (hasMarker_false_elim hs1).2.2
      · exact safePre_chunk hnl (isSubstr_false_iff.mp (by decide))
      · exact safePre_chunk hnl (hasMarker_false_elim hr1).2.2
    rw [hshape, countAux_block hm _ hA (safePre_nl hnl hm),
      ih (fun b hb => hgood b (List.mem_cons_of_mem _ hb))]
    simp [Nat.add_comm]

/-! ### Lines of a canonical patch -/

theorem consHead_ne_nil (c : Char) (l : List Str) : consHead c l ≠ [] := by
  cases l <;> simp [consHead]

theorem consHead_append {c : Char} {A : List Str} (B : List Str) (h : A ≠ []) :
    consHead c (A ++ B) = consHead c A ++ B := by
  cases A with
  | nil => exact absurd rfl h
  | cons a as => simp [consHead]

theorem splitlines_nl (t : Str) : splitlines ('\n' :: t) = [] :: splitlines t := by
  conv_lhs => rw [splitlines.eq_def]
  simp

theorem splitlines_other {c : Char} (h1 : c ≠ '\n') (h2 : c ≠ '\r') (t : Str) :
    splitlines (c :: t) = consHead c (splitlines t) := by
  conv_lhs => rw [splitlines.eq_def]
  simp [h1, h2]

theorem splitlines_chunk_ne_nil : ∀ x : Str, '\r' ∉ x →
    splitlines (chunkNl x) ≠ [] := by
  intro x
  induction x with
  | nil =>
    intro _
    simp [chunkNl, splitlines]
  | cons c x' ih =>
    intro h
    have hc2 : c ≠ '\r' := fun hh => h (hh ▸ List.mem_cons_self _ _)
    by_cases hc1 : c = '\n'
    · subst hc1
      rw [show chunkNl ('\n' :: x') = '\n' :: chunkNl x' from rfl, splitlines_nl]
      simp
    · rw [show chunkNl (c :: x') = c :: chunkNl x' from rfl,
        splitlines_other hc1 hc2]
      exact consHead_ne_nil _ _

theorem splitlines_chunk_append : ∀ (x : Str), '\r' ∉ x → ∀ rest : Str,
    splitlines (x ++ '\n' :: rest) = splitlines (chunkNl x) ++ splitlines rest := by
  intro x
  induction x with
  | nil =>
    intro _ rest
    simp [chunkNl, splitlines_nl, splitlines]
  | cons c x' ih =>
    intro h rest
    have hc2 : c ≠ '\r' := fun hh => h (hh ▸ List.mem_cons_self _ _)
    have hx' : '\r' ∉ x' := fun hh => h (List.mem_cons_of_mem _ hh)
    by_cases hc1 : c = '\n'
    · subst hc1
      rw [show ('\n' :: x') ++ '\n' :: rest = '\n' :: (x' ++ '\n' :: rest) from rfl,
        splitlines_nl, ih hx' rest,
        show chunkNl ('\n' :: x') = '\n' :: chunkNl x' from rfl, splitlines_nl]
      rfl
    · rw [show (c :: x') ++ '\n' :: rest = c :: (x' ++ '\n' :: rest) from rfl,
        splitlines_other hc1 hc2, ih hx' rest,
        show chunkNl (c :: x') = c :: chunkNl x' from rfl,
        splitlines_other hc1 hc2,
        consHead_append _ (splitlines_chunk_ne_nil x' hx')]

theorem infix_cons_self (c : Char) (x : Str) : x <:+: c :: x :=
  ⟨[c], [], by simp⟩

theorem splitlines_chunk_struct : ∀ x : Str, '\r' ∉ x →
    ∃ h t, splitlines (chunkNl x) = h :: t ∧ h <+: x ∧ ∀ l ∈ t, l <:+: x := by
  intro x
  induction x with
  | nil =>
    intro _
    exact ⟨[], [], by simp [chunkNl, splitlines], List.nil_prefix, by simp⟩
  | cons c x' ih =>
    intro h
    have hc2 : c ≠ '\r' := fun hh => h (hh ▸ List.mem_cons_self _ _)
    have hx' : '\r' ∉ x' := fun hh => h (List.mem_cons_of_mem _ hh)
    obtain ⟨hh, tt, heq, hpre, hinf⟩ := ih hx'
    by_cases hc1 : c = '\n'
    · subst hc1
      refine ⟨[], splitlines (chunkNl x'), ?_, List.nil_prefix, ?_⟩
      · rw [show chunkNl ('\n' :: x') = '\n' :: chunkNl x' from rfl, splitlines_nl]
      · intro l hl
        rw [heq] at hl
        rcases List.mem_cons.mp hl with rfl | hl2
        · obtain ⟨u, hu⟩ := hpre
          exact ⟨['\n'], u, by simp [hu]⟩
        · exact (hinf l hl2).trans (infix_cons_self _ _)
    · refine ⟨c :: hh, tt, ?_, List.cons_prefix_cons.mpr ⟨rfl, hpre⟩, ?_⟩
      · rw [show chunkNl (c :: x') = c :: chunkNl x' from rfl,
          splitlines_other hc1 hc2, heq]
        rfl
      · intro l hl
        exact (hinf l hl).trans (infix_cons_self _ _)

theorem splitlines_chunk_within (x : Str) (hx : '\r' ∉ x) :
    ∀ l ∈ splitlines (chunkNl x), l <:+: x := by
  obtain ⟨hh, tt, heq, hpre, hinf⟩ := splitlines_chunk_struct x hx
  intro l hl
  rw [heq] at hl
  rcases List.mem_cons.mp hl with rfl | hl2
  · exact hpre.isInfix
  · exact hinf l hl2

theorem pyStrip_within (l : Str) : pyStrip l <:+: l := by
  unfold pyStrip
  have h1 : l.dropWhile pyIsSpace <:+ l := List.dropWhile_suffix _
  have h2 : (l.dropWhile pyIsSpace).reverse.dropWhile pyIsSpace <:+
      (l.dropWhile pyIsSpace).reverse := List.dropWhile_suffix _
  obtain ⟨u, hu⟩ := h2
  have h3 : ((l.dropWhile pyIsSpace).reverse.dropWhile pyIsSpace).reverse <+:
      l.dropWhile pyIsSpace :=
    ⟨u.reverse, by rw [← List.reverse_append, hu, List.reverse_reverse]⟩
  exact h3.isInfix.trans h1.isInfix

def tripleList : Nat → List Str
  | 0 => []
  | n + 1 => search_marker :: separator :: replace_marker :: tripleList n

theorem markerLines_payload (x : Str) (hx1 : hasMarker x = false) (hx2 : '\r' ∉ x) :
    ((splitlines (chunkNl x)).map pyStrip).filter isMarkerLine = [] := by
  rw [List.filter_eq_nil_iff]
  intro a ha
  obtain ⟨l, hl, rfl⟩ := List.mem_map.mp ha
  intro hmark
  have hinfl : pyStrip l <:+: x :=
    (pyStrip_within l).trans (splitlines_chunk_within x hx2 l hl)
  unfold isMarkerLine at hmark
  simp only [Bool.or_eq_true, beq_iff_eq] at hmark
  have helim := hasMarker_false_elim hx1
  rcases hmark with (h | h) | h
  · exact helim.1 (h ▸ hinfl)
  · exact helim.2.1 (h ▸ hinfl)
  · exact helim.2.2 (h ▸ hinfl)

theorem markerLines_canonical : ∀ bs : List (Str × Str), goodBlocks bs →
    ((splitlines (canonicalPatch bs)).map pyStrip).filter isMarkerLine =
      tripleList bs.length := by
  intro bs
  induction bs with
  | nil => intro _; rfl
  | cons b bs ih =>
    intro hgood
    obtain ⟨s, r⟩ := b
    obtain ⟨⟨hs1, hs2⟩, hr1, hr2⟩ := hgood (s, r) (List.mem_cons_self _ _)
    rw [show canonicalPatch ((s, r) :: bs) =
        search_marker ++ '\n' :: (s ++ '\n' :: (separator ++ '\n' ::
          (r ++ '\n' :: (replace_marker ++ '\n' :: canonicalPatch bs)))) by
      simp [canonicalPatch, blkText, chunkNl, List.append_assoc]]
    rw [splitlines_chunk_append search_marker (by decide),
      splitlines_chunk_append s hs2,
      splitlines_chunk_append separator (by decide),
      splitlines_chunk_append r hr2,
      splitlines_chunk_append replace_marker (by decide)]
    simp only [List.map_append, List.filter_append]
    rw [markerLines_payload s hs1 hs2, markerLines_payload r hr1 hr2,
      ih (fun b hb => hgood b (List.mem_cons_of_mem _ hb))]
    rw [show ((splitlines (chunkNl search_marker)).map pyStrip).filter isMarkerLine
        = [search_marker] from rfl,
      show ((splitlines (chunkNl separator)).map pyStrip).filter isMarkerLine
        = [separator] from rfl,
      show ((splitlines (chunkNl replace_marker)).map pyStrip).filter isMarkerLine
        = [replace_marker] from rfl]
    simp [tripleList]

theorem seqCheck_triple : ∀ (n : Nat) (pos : Nat),
    seqCheck (tripleList n) pos = .ok () := by
  intro n
  induction n with
  | zero => intro _; rfl
  | succ n ih =>
    intro pos
    rw [show tripleList (n + 1) =
      search_marker :: separator :: replace_marker :: tripleList n from rfl]
    rw [show seqCheck (search_marker :: separator :: replace_marker :: tripleList n)
      pos = seqCheck (tripleList n) (pos + 3) by simp [seqCheck]]
    exact ih _

theorem validate_canonical (bs : List (Str × Str)) (hgood : goodBlocks bs) :
    validate_block_integrity (canonicalPatch bs) = .ok () := by
  unfold validate_block_integrity
  have ho : strCount (canonicalPatch bs) search_marker = bs.length := by
    rw [strCount_of_ne (by decide)]
    exact count_open_canonical bs hgood
  have hs : strCount (canonicalPatch bs) separator = bs.length := by
    rw [strCount_of_ne (by decide)]
    exact count_sep_canonical bs hgood
  have hc : strCount (canonicalPatch bs) replace_marker = bs.length := by
    rw [strCount_of_ne (by decide)]
    exact count_close_canonical bs hgood
  rw [ho, hs, hc, if_neg (not_not_intro ⟨rfl, rfl⟩),
    markerLines_canonical bs hgood]
  simp only [seqCheck_triple]
  exact nestedCheck_ok _
    (fun sec hsec => pySplit_pieces (by decide) _ sec (List.mem_of_mem_tail hsec)) 1

theorem checkLeak_ok : ∀ (bs : List (Str × Str)) (i : Nat),
    (∀ b ∈ bs, hasMarker b.1 = false ∧ hasMarker b.2 = false) →
    checkLeak i bs = .ok () := by
  intro bs
  induction bs with
  | nil => intro _ _; rfl
  | cons b rest ih =>
    intro i h
    obtain ⟨st, rt⟩ := b
    obtain ⟨h1, h2⟩ := h (st, rt) (List.mem_cons_self _ _)
    simp only [checkLeak, h1, h2, Bool.false_eq_true, if_false]
    exact ih (i + 1) (fun b hb => h b (List.mem_cons_of_mem _ hb))

theorem parse_canonical (bs : List (Str × Str)) (hbs : bs ≠ [])
    (hgood : goodBlocks bs) :
    parse_search_replace_blocks (canonicalPatch bs) = .ok bs := by
  unfold parse_search_replace_blocks
  rw [validate_canonical bs hgood]
  have hemp : bs.isEmpty = false := by
    cases bs with
    | nil => exact absurd rfl hbs
    | cons b rest => rfl
  simp only [regexFindall_canonical bs hgood, hemp, Bool.false_eq_true, if_false]
  rw [checkLeak_ok bs 0 (fun b hb => ⟨((hgood b hb).1).1, ((hgood b hb).2).1⟩)]

/-- A patch with one well-formed marker triple in which the separator line is
indented by one space: each marker is on its own line after trimming, the
substring counts are balanced and in order, and there is no nesting. -/
def c1patch : Str := "<<<<<<< SEARCH\na\n =======\nb\n>>>>>>> REPLACE".data

/-- C1 counterexample.  `c1patch` satisfies the claim's well-formedness
premise — each marker sits on its own line after trimming (the trimmed marker
lines are exactly one SEARCH/separator/REPLACE triple), the three marker
counts are balanced, and validation succeeds — yet the parser returns the
missing-separator error instead of the one block: the regex requires the
separator at column zero and the fallback compares lines without trimming. -/
theorem c1_counterexample :
    ((splitlines c1patch).map pyStrip).filter isMarkerLine =
      [search_marker, separator, replace_marker] ∧
    strCount c1patch search_marker = 1 ∧
    strCount c1patch separator = 1 ∧
    strCount c1patch replace_marker = 1 ∧
    validate_block_integrity c1patch = .ok () ∧
    parse_search_replace_blocks c1patch = .error .missingSeparator :=
  ⟨rfl, rfl, rfl, rfl, rfl, rfl⟩

/-- C1 amended.  For every non-empty block list in exact canonical layout
(markers alone on their own untrimmed lines, payloads free of marker
substrings and of carriage returns), validation succeeds and parsing returns
exactly those blocks in source order. -/
theorem c1_canonical_wellformed : ∀ bs : List (Str × Str), bs ≠ [] →
    goodBlocks bs →
    validate_block_integrity (canonicalPatch bs) = .ok () ∧
    parse_search_replace_blocks (canonicalPatch bs) = .ok bs :=
  fun bs h1 h2 => ⟨validate_canonical bs h2, parse_canonical bs h1 h2⟩

theorem c1_canonical_wellformed_witness :
    validate_block_integrity (canonicalPatch
      [("alpha".data, "beta".data), ("x1".data, "y2".data)]) = .ok () ∧
    parse_search_replace_blocks (canonicalPatch
      [("alpha".data, "beta".data), ("x1".data, "y2".data)]) =
      .ok [("alpha".data, "beta".data), ("x1".data, "y2".data)] :=
  c1_canonical_wellformed [("alpha".data, "beta".data), ("x1".data, "y2".data)]
    (by decide) (by decide)
